import Mathlib

/-!
Formal model of the real-time buffering and display-windowing core of the
`lsl-viewer` application (`src/main.rs`), together with proofs of the
testable properties stated by the specification.

Modelling conventions:
* `f64` timestamps and values are modelled as exact rationals (`ℚ`); the
  properties at stake are order/arithmetic properties, not rounding ones.
* The Rust `%` on floats is truncated remainder: `x % y = x - (x/y).trunc() * y`;
  `ratTrunc`/`rustRem` model it.
* `VecDeque<(f64, f32)>` becomes `List Entry`, front at the head.
* The GUI layer (egui widgets, colors, repaint scheduling) is out of scope, as
  are the LSL transport internals: the acquisition loop is modelled as a step
  function over the pending command queue, with the connect outcome of the adapter
  abstracted as a boolean oracle.
-/

/-- Truncation toward zero of a rational, as `f64::trunc` of Rust. -/
def ratTrunc (x : ℚ) : ℤ := if 0 ≤ x then ⌊x⌋ else ⌈x⌉

/-- The Rust `%` operator on `f64`: remainder after division truncated toward
zero, so the result has the sign of the dividend. -/
def rustRem (x y : ℚ) : ℚ := x - (ratTrunc (x / y)) * y

/-- One buffered `(timestamp, value)` pair of the `VecDeque` of a channel. -/
structure Entry where
  ts : ℚ
  val : ℚ
deriving DecidableEq

/-- The per-channel eviction loop of `process_responses` (`main.rs:178-186`):
pop from the front while the front timestamp is below the cutoff, stop at the
first entry at or above it. -/
def evictChannel (cutoff : ℚ) : List Entry → List Entry
  | [] => []
  | e :: rest => if e.ts < cutoff then evictChannel cutoff rest else e :: rest

/-- The append half of the `Data` branch of `process_responses`
(`main.rs:170-174`): value `i` of the sample is pushed to the back of channel
buffer `i`; values beyond the buffer count are dropped, buffers beyond the
value count are untouched. -/
def appendSample : List (List Entry) → ℚ → List ℚ → List (List Entry)
  | bs, _, [] => bs
  | [], _, _ :: _ => []
  | b :: bs, t, v :: vs => (b ++ [⟨t, v⟩]) :: appendSample bs t vs

/-- The full `Data` branch of `process_responses` (`main.rs:168-187`): append
the sample, then evict every channel at cutoff
`sample.timestamp - time_window_seconds`. -/
def processDataResponse (buffers : List (List Entry)) (t : ℚ) (values : List ℚ)
    (W : ℚ) : List (List Entry) :=
  (appendSample buffers t values).map (evictChannel (t - W))

/-- Mean of the buffered values of one channel, as accumulated by
`baseline_correct` (`main.rs:196-204`): running sum divided by the length. -/
def channelMean (b : List Entry) : ℚ := (b.map Entry.val).sum / b.length

/-- `LslViewer::baseline_correct` (`main.rs:193-208`): for each channel with a
non-empty buffer the baseline becomes the buffer mean; an empty channel keeps
its previous baseline (the loop body is skipped). -/
def baseline_correct : List (List Entry) → List ℚ → List ℚ
  | _, [] => []
  | [], old => old
  | b :: bs, prev :: olds =>
      (if b.isEmpty then prev else channelMean b) :: baseline_correct bs olds

/-- Which of the two plot lines a point lands on: `fresh` is the colored line
(`points_vec_a`), `stale` the gray one (`points_vec_b`). -/
inductive Trace
  | fresh
  | stale
deriving DecidableEq

/-- Horizontal placement of one buffered sample by `LslViewer::update`
(`main.rs:560-572`): `t = (timestamp - t0) % W`; if `t > 0` the point goes to
the fresh line at `t`, otherwise to the stale line at `t + W`. -/
def placePoint (W t0 ts : ℚ) : Trace × ℚ :=
  let t := rustRem (ts - t0) W
  if 0 < t then (Trace.fresh, t) else (Trace.stale, t + W)

/-- Vertical placement of one buffered sample (`main.rs:563-565`):
`(value - baseline) * data_scale / 10000 - plot_idx`. -/
def plotValue (baseline scale : ℚ) (plotIdx : ℕ) (v : ℚ) : ℚ :=
  (v - baseline) * scale / 10000 + -1 * plotIdx

/-- The Rust `Iterator::step_by(n)`: the elements at indices `0, n, 2n, ...`. -/
def stepBy (n : ℕ) : List α → List α
  | [] => []
  | x :: xs => x :: stepBy n (xs.drop (n - 1))
termination_by l => l.length
decreasing_by simp; omega

/-- Loop body of the point-building loop of `LslViewer::update`
(`main.rs:560-573`): the point of one sample is pushed onto the fresh or the stale
line, depending on the sign of its wrapped horizontal position. -/
def pushPoint (W t0 baseline scale : ℚ) (plotIdx : ℕ)
    (acc : List (ℚ × ℚ) × List (ℚ × ℚ)) (e : Entry) :
    List (ℚ × ℚ) × List (ℚ × ℚ) :=
  let p := placePoint W t0 e.ts
  let val := plotValue baseline scale plotIdx e.val
  match p.1 with
  | Trace.fresh => (acc.1 ++ [(p.2, val)], acc.2)
  | Trace.stale => (acc.1, acc.2 ++ [(p.2, val)])

/-- The per-channel point-building loop of `LslViewer::update`
(`main.rs:558-573`): iterate the buffer with stride `downsample_factor.max(1)`
and push the point of each sample onto the fresh or the stale line. -/
def buildPoints (W t0 baseline scale : ℚ) (plotIdx : ℕ) (d : ℕ)
    (channelData : List Entry) : List (ℚ × ℚ) × List (ℚ × ℚ) :=
  (stepBy (max d 1) channelData).foldl
    (pushPoint W t0 baseline scale plotIdx) ([], [])

/-- The command surface of the acquisition actor (`main.rs:29-33`). -/
inductive LslCommand
  | refreshStreams
  | connect (index : ℕ)
  | disconnect
deriving DecidableEq

/-- Effect of one command on the connection handle of the actor
(`main.rs:237-295`): `RefreshStreams` leaves the inlet untouched, `Connect`
installs an inlet exactly when stream lookup and inlet creation succeed
(abstracted by the oracle `connectOk`), `Disconnect` drops the inlet. -/
def handleCommand (connectOk : ℕ → Bool) (connected : Bool) :
    LslCommand → Bool
  | LslCommand.refreshStreams => connected
  | LslCommand.connect i => if connectOk i then true else connected
  | LslCommand.disconnect => false

/-- Observable outcome of one iteration of the `lsl_handler_thread` loop. -/
structure IterResult where
  pending : List LslCommand
  connected : Bool
  pulled : Bool
deriving DecidableEq

/-- One iteration of the `lsl_handler_thread` loop (`main.rs:234-318`): a
single `try_recv` handles at most one queued command, then a pull is attempted
if and only if an inlet is present. The queue is the list of commands pending
at the start of the iteration, head first. -/
def loopIteration (connectOk : ℕ → Bool) (queue : List LslCommand)
    (connected : Bool) : IterResult :=
  match queue with
  | [] => ⟨[], connected, connected⟩
  | c :: rest =>
      let conn := handleCommand connectOk connected c
      ⟨rest, conn, conn⟩

/-- Descriptor of one discovered stream (`main.rs:16-21`). -/
structure StreamData where
  name : String
  channel_count : ℕ
  sample_rate : ℚ
deriving DecidableEq

/-- The response surface (`main.rs:35-41`); `Data` carries one multi-channel
sample. -/
inductive LslResponse
  | streamsFound (streams : List StreamData)
  | connected (name : String) (channels : List String)
  | disconnected
  | error (msg : String)
  | data (timestamp : ℚ) (values : List ℚ)

/-- The `LslViewer` state touched by `process_responses` (`main.rs:43-75`);
GUI-only fields (colors, repaint flags, mpsc handles) are omitted. -/
structure ViewerState where
  available_streams : List StreamData
  selected_stream_index : Option ℕ
  is_connected : Bool
  channel_names : List String
  channel_count : ℕ
  selected_channels : List Bool
  data_scale : ℚ
  time_window_seconds : ℚ
  downsample_factor : ℕ
  data_buffer : List (List Entry)
  channel_baselines : List ℚ
  status_message : String
deriving DecidableEq

/-- The response dispatch of `LslViewer::process_responses`
(`main.rs:131-189`), one message at a time. -/
def processResponse (s : ViewerState) : LslResponse → ViewerState
  | LslResponse.streamsFound streams =>
      { s with available_streams := streams,
               status_message :=
                 if streams.isEmpty then "No streams found"
                 else "Found " ++ toString streams.length ++ " stream(s)" }
  | LslResponse.connected name channels =>
      { s with channel_count := channels.length,
               selected_channels := List.replicate channels.length true,
               data_buffer := List.replicate channels.length [],
               channel_baselines := List.replicate channels.length 0,
               channel_names := channels,
               is_connected := true,
               status_message :=
                 "Connected to: " ++ name ++ " (" ++
                   toString channels.length ++ " channels)" }
  | LslResponse.disconnected =>
      { s with is_connected := false,
               selected_stream_index := none,
               status_message := "Disconnected" }
  | LslResponse.error msg =>
      { s with status_message := "Error: " ++ msg }
  | LslResponse.data t values =>
      { s with data_buffer :=
          processDataResponse s.data_buffer t values s.time_window_seconds }

/-- A concrete viewer state holding one buffered sample, used to exhibit
behaviour of the `Disconnected` branch. -/
def sampleState : ViewerState where
  available_streams := []
  selected_stream_index := some 0
  is_connected := true
  channel_names := ["Ch 0"]
  channel_count := 1
  selected_channels := [true]
  data_scale := 25
  time_window_seconds := 2
  downsample_factor := 1
  data_buffer := [[⟨1, 2⟩]]
  channel_baselines := [0]
  status_message := ""

theorem mem_of_mem_evictChannel {cutoff : ℚ} {e : Entry} :
    ∀ {b : List Entry}, e ∈ evictChannel cutoff b → e ∈ b
  | [], h => by simp [evictChannel] at h
  | f :: rest, h => by
      by_cases hf : f.ts < cutoff
      · simp only [evictChannel, if_pos hf] at h
        exact List.mem_cons_of_mem f (mem_of_mem_evictChannel h)
      · simpa [evictChannel, if_neg hf] using h

theorem evictChannel_sorted_ge {cutoff : ℚ} :
    ∀ {b : List Entry}, b.Pairwise (fun e f => e.ts ≤ f.ts) →
      ∀ e ∈ evictChannel cutoff b, cutoff ≤ e.ts
  | [], _, e, he => by simp [evictChannel] at he
  | f :: rest, hs, e, he => by
      rcases List.pairwise_cons.mp hs with ⟨hf, hrest⟩
      by_cases hlt : f.ts < cutoff
      · simp only [evictChannel, if_pos hlt] at he
        exact evictChannel_sorted_ge hrest e he
      · simp only [evictChannel, if_neg hlt] at he
        rcases List.mem_cons.mp he with rfl | hmem
        · exact le_of_not_lt hlt
        · exact le_trans (le_of_not_lt hlt) (hf e hmem)

theorem evictChannel_sorted_keep {cutoff : ℚ} :
    ∀ {b : List Entry}, b.Pairwise (fun e f => e.ts ≤ f.ts) →
      ∀ e ∈ b, cutoff ≤ e.ts → e ∈ evictChannel cutoff b
  | [], _, e, he, _ => by simp at he
  | f :: rest, hs, e, he, hts => by
      rcases List.pairwise_cons.mp hs with ⟨-, hrest⟩
      by_cases hlt : f.ts < cutoff
      · simp only [evictChannel, if_pos hlt]
        rcases List.mem_cons.mp he with rfl | hmem
        · exact absurd hts (not_le.mpr hlt)
        · exact evictChannel_sorted_keep hrest e hmem hts
      · simpa [evictChannel, if_neg hlt] using he

theorem evictChannel_eq_drop (cutoff : ℚ) :
    ∀ b : List Entry, ∃ k,
      (∀ e ∈ b.take k, e.ts < cutoff) ∧
      evictChannel cutoff b = b.drop k ∧
      ∀ e ∈ (evictChannel cutoff b).head?, cutoff ≤ e.ts
  | [] => ⟨0, by simp [evictChannel]⟩
  | f :: rest => by
      by_cases hf : f.ts < cutoff
      · obtain ⟨k, h1, h2, h3⟩ := evictChannel_eq_drop cutoff rest
        refine ⟨k + 1, ?_, ?_, ?_⟩
        · intro e he
          rcases List.mem_cons.mp (by simpa using he) with rfl | hmem
          · exact hf
          · exact h1 e hmem
        · simpa [evictChannel, if_pos hf] using h2
        · simpa [evictChannel, if_pos hf] using h3
      · refine ⟨0, by simp, by simp [evictChannel, if_neg hf], ?_⟩
        intro e he
        simp only [evictChannel, if_neg hf, List.head?_cons, Option.mem_some_iff] at he
        exact he ▸ le_of_not_lt hf

theorem rustRem_eq_self {x y : ℚ} (h0 : 0 ≤ x) (hxy : x < y) : rustRem x y = x := by
  have hy : 0 < y := lt_of_le_of_lt h0 hxy
  have hq0 : 0 ≤ x / y := div_nonneg h0 hy.le
  have hq1 : x / y < 1 := (div_lt_one hy).mpr hxy
  have hfloor : ⌊x / y⌋ = 0 := Int.floor_eq_zero_iff.mpr ⟨hq0, hq1⟩
  simp [rustRem, ratTrunc, if_pos hq0, hfloor]

theorem rustRem_nonneg {x y : ℚ} (hy : 0 < y) (h0 : 0 ≤ x) : 0 ≤ rustRem x y := by
  have hq0 : 0 ≤ x / y := div_nonneg h0 hy.le
  have hle : (⌊x / y⌋ : ℚ) * y ≤ x := by
    have := mul_le_mul_of_nonneg_right (Int.floor_le (x / y)) hy.le
    rwa [div_mul_cancel₀ x hy.ne'] at this
  simp only [rustRem, ratTrunc, if_pos hq0]
  linarith

theorem rustRem_neg_gt {x y : ℚ} (hy : 0 < y) (hneg : rustRem x y < 0) :
    -y < rustRem x y := by
  by_cases h0 : 0 ≤ x
  · exact absurd (rustRem_nonneg hy h0) (not_le.mpr hneg)
  · have hx : x < 0 := lt_of_not_le h0
    have hq : ¬ 0 ≤ x / y := not_le.mpr (div_neg_of_neg_of_pos hx hy)
    have hceil : (⌈x / y⌉ : ℚ) < x / y + 1 := Int.ceil_lt_add_one (x / y)
    have hmul : (⌈x / y⌉ : ℚ) * y < (x / y + 1) * y :=
      mul_lt_mul_of_pos_right hceil hy
    rw [add_mul, div_mul_cancel₀ x hy.ne', one_mul] at hmul
    simp only [rustRem, ratTrunc, if_neg hq]
    linarith


theorem stepBy_nil (n : ℕ) : stepBy n ([] : List α) = [] := by
  simp [stepBy]

theorem stepBy_cons (n : ℕ) (x : α) (xs : List α) :
    stepBy n (x :: xs) = x :: stepBy n (xs.drop (n - 1)) := by
  rw [stepBy]

theorem stepBy_length (n : ℕ) (hn : 1 ≤ n) :
    ∀ l : List α, (stepBy n l).length = (l.length + n - 1) / n
  | [] => by
      rw [stepBy_nil]
      simp [Nat.div_eq_of_lt (show n - 1 < n by omega)]
  | x :: xs => by
      rw [stepBy_cons]
      have ih := stepBy_length n hn (xs.drop (n - 1))
      simp only [List.length_cons, ih, List.length_drop]
      have hR : xs.length + 1 + n - 1 = xs.length + n := by omega
      rw [hR, Nat.add_div_right _ (by omega : 0 < n)]
      rcases le_or_lt (n - 1) xs.length with hc | hc
      · have hL : xs.length - (n - 1) + n - 1 = xs.length := by omega
        rw [hL]
      · have hL : xs.length - (n - 1) + n - 1 = n - 1 := by omega
        rw [hL, Nat.div_eq_of_lt (by omega), Nat.div_eq_of_lt (by omega)]
termination_by l => l.length
decreasing_by simp; omega

theorem stepBy_getElem (n : ℕ) (hn : 1 ≤ n) :
    ∀ (l : List α) (i : ℕ), (stepBy n l)[i]? = l[n * i]?
  | [], i => by rw [stepBy_nil]; simp
  | x :: xs, 0 => by rw [stepBy_cons]; simp
  | x :: xs, i + 1 => by
      rw [stepBy_cons]
      have ih := stepBy_getElem n hn (xs.drop (n - 1)) i
      rw [List.getElem?_cons_succ, ih, List.getElem?_drop]
      have hidx : n * (i + 1) = (n - 1 + n * i) + 1 := by
        rw [Nat.mul_succ]
        omega
      rw [hidx, List.getElem?_cons_succ]
termination_by l => l.length
decreasing_by simp; omega

theorem foldl_pushPoint_length (W t0 baseline scale : ℚ) (plotIdx : ℕ) :
    ∀ (pts : List Entry) (acc : List (ℚ × ℚ) × List (ℚ × ℚ)),
      (pts.foldl (pushPoint W t0 baseline scale plotIdx) acc).1.length +
        (pts.foldl (pushPoint W t0 baseline scale plotIdx) acc).2.length =
      acc.1.length + acc.2.length + pts.length
  | [], acc => by simp
  | e :: pts, acc => by
      rw [List.foldl_cons,
        foldl_pushPoint_length W t0 baseline scale plotIdx pts]
      cases h : (placePoint W t0 e.ts).1 <;> simp [pushPoint, h] <;> omega

theorem chain_gap_all {δ : ℚ} (hδ : 0 ≤ δ) :
    ∀ {l : List Entry} {a : Entry},
      List.Chain (fun e f => e.ts + δ ≤ f.ts) a l →
      ∀ b ∈ l, a.ts + δ ≤ b.ts
  | [], _, _, b, hb => by simp at hb
  | c :: l, a, hch, b, hb => by
      rcases List.chain_cons.mp hch with ⟨hac, hcl⟩
      rcases List.mem_cons.mp hb with rfl | hmem
      · exact hac
      · have := chain_gap_all hδ hcl b hmem
        linarith

theorem chain_gap_pairwise {δ : ℚ} (hδ : 0 ≤ δ) :
    ∀ l : List Entry, List.Chain' (fun e f => e.ts + δ ≤ f.ts) l →
      l.Pairwise fun e f => e.ts ≤ f.ts
  | [], _ => List.Pairwise.nil
  | a :: l, h => by
      have hch : List.Chain (fun e f => e.ts + δ ≤ f.ts) a l := h
      refine List.pairwise_cons.mpr ⟨?_, ?_⟩
      · intro b hb
        have := chain_gap_all hδ hch b hb
        linarith
      · exact chain_gap_pairwise hδ l (List.Chain'.tail h)

theorem chain'_evictChannel {R : Entry → Entry → Prop} (cutoff : ℚ) :
    ∀ l : List Entry, List.Chain' R l → List.Chain' R (evictChannel cutoff l)
  | [], h => h
  | f :: rest, h => by
      by_cases hf : f.ts < cutoff
      · rw [evictChannel, if_pos hf]
        exact chain'_evictChannel cutoff rest (List.Chain'.tail h)
      · rwa [evictChannel, if_neg hf]

theorem chain_gap_bound {δ now : ℚ} :
    ∀ (l : List Entry) (a : Entry),
      List.Chain (fun e f => e.ts + δ ≤ f.ts) a l →
      (∀ e ∈ a :: l, e.ts ≤ now) →
      a.ts + l.length * δ ≤ now
  | [], a, _, hle => by simpa using hle a (by simp)
  | b :: l, a, hch, hle => by
      rcases List.chain_cons.mp hch with ⟨hab, hbl⟩
      have ih := chain_gap_bound l b hbl (fun e he => hle e (by
        rcases List.mem_cons.mp he with rfl | hm
        · simp
        · simp [hm]))
      have hlen : ((b :: l).length : ℚ) = l.length + 1 := by
        rw [List.length_cons]
        push_cast
        ring
      rw [hlen]
      linarith

theorem baseline_correct_getElem :
    ∀ (buffers : List (List Entry)) (old : List ℚ),
      buffers.length = old.length →
      ∀ i, i < old.length →
        (baseline_correct buffers old)[i]? =
          if (buffers[i]?.getD []).isEmpty then old[i]?
          else some (channelMean (buffers[i]?.getD []))
  | [], old, hlen, i, hi => by
      have : old = [] := List.length_eq_zero.mp hlen.symm
      subst this
      simp at hi
  | b :: bs, [], hlen, i, hi => by simp at hi
  | b :: bs, prev :: olds, hlen, 0, hi => by
      by_cases hb : b.isEmpty <;> simp [baseline_correct, hb]
  | b :: bs, prev :: olds, hlen, i + 1, hi => by
      have ih := baseline_correct_getElem bs olds (by simpa using hlen) i
        (by simpa using hi)
      simpa [baseline_correct] using ih

theorem baseline_correct_length :
    ∀ (buffers : List (List Entry)) (old : List ℚ),
      buffers.length = old.length →
      (baseline_correct buffers old).length = old.length
  | [], old, hlen => by
      have : old = [] := List.length_eq_zero.mp hlen.symm
      subst this
      rfl
  | b :: bs, [], hlen => by simp at hlen
  | b :: bs, prev :: olds, hlen => by
      have ih := baseline_correct_length bs olds (by simpa using hlen)
      simp [baseline_correct, ih]

/-- Claim C1: in the eviction step of a `Data` response with timestamp `now`
(cutoff `now - window_seconds`), provided each appended channel buffer has
non-decreasing timestamps, no entry with timestamp below the cutoff remains in
any channel buffer, and no entry with timestamp at or above the cutoff is
removed. -/
theorem evict_removes_exactly_old (buffers : List (List Entry)) (now W : ℚ)
    (values : List ℚ)
    (hs : ∀ b ∈ appendSample buffers now values,
      b.Pairwise fun e f => e.ts ≤ f.ts) :
    (∀ b ∈ processDataResponse buffers now values W, ∀ e ∈ b,
        ¬ (e.ts < now - W)) ∧
    (∀ b ∈ appendSample buffers now values, ∀ e ∈ b, now - W ≤ e.ts →
        e ∈ evictChannel (now - W) b) := by
  constructor
  · intro b hb e he
    rcases List.mem_map.mp hb with ⟨b0, hb0, rfl⟩
    exact not_lt.mpr (evictChannel_sorted_ge (hs b0 hb0) e he)
  · intro b hb e he hts
    exact evictChannel_sorted_keep (hs b hb) e he hts

/-- Witness for C1 at a concrete input: one channel holding `(0, 1)`, a sample
`(3, [2])`, window 2, hence cutoff 1. -/
theorem evict_removes_exactly_old_witness :
    (∀ b ∈ appendSample [[⟨0, 1⟩]] 3 [2],
      b.Pairwise fun e f : Entry => e.ts ≤ f.ts) ∧
    ((∀ b ∈ processDataResponse [[⟨0, 1⟩]] 3 [2] 2, ∀ e ∈ b,
        ¬ (e.ts < 3 - 2)) ∧
     (∀ b ∈ appendSample [[⟨0, 1⟩]] 3 [2], ∀ e ∈ b, 3 - 2 ≤ e.ts →
        e ∈ evictChannel (3 - 2) b)) :=
  ⟨by decide, evict_removes_exactly_old [[⟨0, 1⟩]] 3 2 [2] (by decide)⟩

/-- Claim C2 counterexample: with two commands pending (`RefreshStreams` then
`Disconnect`) and a live inlet, one loop iteration handles only the first
command and then attempts a pull while `Disconnect` is still queued, so a pull
does happen while a command remains queued. -/
theorem pull_attempted_with_command_pending :
    (loopIteration (fun _ => false)
      [LslCommand.refreshStreams, LslCommand.disconnect] true).pulled = true ∧
    (loopIteration (fun _ => false)
      [LslCommand.refreshStreams, LslCommand.disconnect] true).pending ≠ [] :=
  by decide

/-- Claim C2 (amended): each iteration of the acquisition loop handles at most
one pending command (the head of the queue; `try_recv` is called once), leaves
the rest of the queue pending, and attempts a pull exactly when an inlet is
present after that single command. Commands are therefore *not* all drained
before a pull. -/
theorem loopIteration_single_command (connectOk : ℕ → Bool)
    (queue : List LslCommand) (connected : Bool) :
    (loopIteration connectOk queue connected).pending = queue.tail ∧
    (loopIteration connectOk queue connected).pulled =
      (loopIteration connectOk queue connected).connected ∧
    (loopIteration connectOk queue connected).connected =
      (match queue with
       | [] => connected
       | c :: _ => handleCommand connectOk connected c) := by
  cases queue <;> simp [loopIteration]

/-- Witness for C2 (amended) at a concrete input: a `Disconnect` at the head
of a two-command queue is handled, the second command stays pending, and no
pull is attempted because the inlet was dropped. -/
theorem loopIteration_single_command_witness :
    (loopIteration (fun _ => true)
      [LslCommand.disconnect, LslCommand.connect 0] true).pending =
        [LslCommand.disconnect, LslCommand.connect 0].tail ∧
    (loopIteration (fun _ => true)
      [LslCommand.disconnect, LslCommand.connect 0] true).pulled =
      (loopIteration (fun _ => true)
        [LslCommand.disconnect, LslCommand.connect 0] true).connected ∧
    (loopIteration (fun _ => true)
      [LslCommand.disconnect, LslCommand.connect 0] true).connected =
      (match [LslCommand.disconnect, LslCommand.connect 0] with
       | [] => true
       | c :: _ => handleCommand (fun _ => true) true c) :=
  loopIteration_single_command (fun _ => true)
    [LslCommand.disconnect, LslCommand.connect 0] true

/-- Claim C3 counterexample: with `W = 2`, latest timestamp `T = 4` (so
`t0 = 4`), the sample at `ts = 4` has unwrapped offset `0 ∈ [0, W)`, yet the
code places it on the stale (gray) trace, because the branch condition is
`t > 0.0`, not `t >= 0.0`. -/
theorem boundary_sample_lands_on_stale_trace :
    (0 : ℚ) ≤ 4 - 4 ∧ (4 : ℚ) - 4 < 2 ∧
    (placePoint 2 4 4).1 = Trace.stale ∧
    ¬ (placePoint 2 4 4).1 = Trace.fresh := by
  with_unfolding_all decide

/-- Claim C3 (amended): a sample whose unwrapped offset `ts - t0` lies in the
*open* interval `(0, W)` is placed on the fresh trace at
`t_rel = (ts - t0) mod W`; a sample whose `t_rel` computes negative is placed
on the stale trace; and the boundary case `ts - t0 = 0` also goes to the stale
trace (at position `W`), not the fresh one. -/
theorem placePoint_fresh_or_stale (W t0 ts : ℚ) (_hW : 0 < W) :
    (0 < ts - t0 → ts - t0 < W →
      placePoint W t0 ts = (Trace.fresh, rustRem (ts - t0) W)) ∧
    (rustRem (ts - t0) W < 0 → (placePoint W t0 ts).1 = Trace.stale) ∧
    (ts - t0 = 0 → placePoint W t0 ts = (Trace.stale, W)) := by
  refine ⟨?_, ?_, ?_⟩
  · intro h1 h2
    have hr := rustRem_eq_self (le_of_lt h1) h2
    simp [placePoint, hr, h1]
  · intro hneg
    simp [placePoint, if_neg (not_lt.mpr (le_of_lt hneg))]
  · intro h0
    have hr : rustRem (ts - t0) W = 0 := by
      rw [h0]
      simp [rustRem, ratTrunc]
    simp [placePoint, hr]

/-- Witness for C3 (amended) at `W = 2`, `t0 = 0`, `ts = 1`. -/
theorem placePoint_fresh_or_stale_witness :
    (0 : ℚ) < 2 ∧
    ((0 < (1 : ℚ) - 0 → (1 : ℚ) - 0 < 2 →
       placePoint 2 0 1 = (Trace.fresh, rustRem ((1 : ℚ) - 0) 2)) ∧
     (rustRem ((1 : ℚ) - 0) 2 < 0 → (placePoint 2 0 1).1 = Trace.stale) ∧
     ((1 : ℚ) - 0 = 0 → placePoint 2 0 1 = (Trace.stale, 2))) :=
  ⟨by norm_num, placePoint_fresh_or_stale 2 0 1 (by norm_num)⟩

/-- Claim C4 counterexample: with `W = 2`, `t0 = 4`, `ts = 3`, the raw modulo
computes `t_rel = -1 < 0`; the point is placed on the stale trace at
`t_rel + W = 1`, which is *not* greater than `W - eps` for the small tolerance
`eps = 1/2` (the claimed lower bound `W - eps` fails: a wrapped point can land
anywhere in `(0, W)`). -/
theorem wrapped_point_far_from_window_end :
    rustRem ((3 : ℚ) - 4) 2 < 0 ∧
    (placePoint 2 4 3).1 = Trace.stale ∧
    (placePoint 2 4 3).2 = rustRem ((3 : ℚ) - 4) 2 + 2 ∧
    (0 : ℚ) < 1 / 2 ∧ (1 / 2 : ℚ) < 2 ∧
    ¬ ((2 : ℚ) - 1 / 2 < (placePoint 2 4 3).2) := by
  with_unfolding_all decide

/-- Claim C4 (amended): a sample whose `t_rel = (ts - t0) mod W` computes
negative is placed on the stale trace at horizontal position `t_rel + W`, and
that position lies strictly between `0` and `W` (hence also strictly below
`2W`); the claimed lower bound `W - eps` holds only with `eps = W`. -/
theorem placePoint_wrap_bounds (W t0 ts : ℚ) (hW : 0 < W)
    (hneg : rustRem (ts - t0) W < 0) :
    placePoint W t0 ts = (Trace.stale, rustRem (ts - t0) W + W) ∧
    0 < rustRem (ts - t0) W + W ∧ rustRem (ts - t0) W + W < W ∧
    rustRem (ts - t0) W + W < 2 * W := by
  have hgt := rustRem_neg_gt hW hneg
  refine ⟨?_, by linarith, by linarith, by linarith⟩
  simp [placePoint, if_neg (not_lt.mpr (le_of_lt hneg))]

/-- Witness for C4 (amended) at `W = 2`, `t0 = 4`, `ts = 3`. -/
theorem placePoint_wrap_bounds_witness :
    (0 : ℚ) < 2 ∧ rustRem ((3 : ℚ) - 4) 2 < 0 ∧
    (placePoint 2 4 3 = (Trace.stale, rustRem ((3 : ℚ) - 4) 2 + 2) ∧
     0 < rustRem ((3 : ℚ) - 4) 2 + 2 ∧ rustRem ((3 : ℚ) - 4) 2 + 2 < 2 ∧
     rustRem ((3 : ℚ) - 4) 2 + 2 < 2 * 2) :=
  ⟨by norm_num, by with_unfolding_all decide,
   placePoint_wrap_bounds 2 4 3 (by norm_num)
     (by with_unfolding_all decide)⟩

/-- Claim C5: if consecutive buffered timestamps are spaced at least
`1/effective_sample_rate` apart (non-decreasing follows) and the buffer ends
with the freshly appended sample at time `now`, then after eviction at `now`
the channel buffer holds at most `ceil(window_seconds * rate) + 1` entries,
independently of elapsed session time (the `O(1)` slack is the constant 1). -/
theorem evict_length_bounded (now W r v : ℚ) (b0 : List Entry) (hr : 0 < r)
    (hW : 0 ≤ W)
    (hchain : List.Chain' (fun e f => e.ts + 1 / r ≤ f.ts)
      (b0 ++ [⟨now, v⟩])) :
    ((evictChannel (now - W) (b0 ++ [⟨now, v⟩])).length : ℤ) ≤ ⌈W * r⌉ + 1 := by
  have hδ : 0 ≤ 1 / r := by positivity
  have hpair : (b0 ++ [(⟨now, v⟩ : Entry)]).Pairwise
      (fun e f : Entry => e.ts ≤ f.ts) :=
    chain_gap_pairwise hδ _ hchain
  have hle : ∀ e ∈ b0 ++ [(⟨now, v⟩ : Entry)], e.ts ≤ now := by
    intro e he
    rcases List.mem_append.mp he with h0 | h1
    · rcases List.pairwise_append.mp hpair with ⟨-, -, hcross⟩
      simpa using hcross e h0 (⟨now, v⟩ : Entry) (by simp)
    · simp at h1
      rw [h1]
  have hceil0 : (0 : ℤ) ≤ ⌈W * r⌉ := Int.ceil_nonneg (mul_nonneg hW hr.le)
  rcases hE : evictChannel (now - W) (b0 ++ [(⟨now, v⟩ : Entry)])
    with _ | ⟨a, tl⟩
  · simp
    omega
  · obtain ⟨k, -, -, hhead⟩ :=
      evictChannel_eq_drop (now - W) (b0 ++ [(⟨now, v⟩ : Entry)])
    have hheadA : now - W ≤ a.ts := by
      have h := hhead a
      rw [hE] at h
      exact h (by simp)
    have hch : List.Chain' (fun e f => e.ts + 1 / r ≤ f.ts) (a :: tl) := by
      rw [← hE]
      exact chain'_evictChannel _ _ hchain
    have hchain2 : List.Chain (fun e f => e.ts + 1 / r ≤ f.ts) a tl := hch
    have hmem : ∀ e ∈ a :: tl, e.ts ≤ now := by
      intro e he
      apply hle
      apply mem_of_mem_evictChannel
      rw [hE]
      exact he
    have hbound := chain_gap_bound tl a hchain2 hmem
    have h1 : (tl.length : ℚ) * (1 / r) ≤ W := by linarith
    have h2 : (tl.length : ℚ) ≤ W * r := by
      rw [mul_one_div] at h1
      exact (div_le_iff₀ hr).mp h1
    have h3 : (tl.length : ℤ) ≤ ⌈W * r⌉ := by
      have hc : (tl.length : ℚ) ≤ (⌈W * r⌉ : ℚ) := le_trans h2 (Int.le_ceil _)
      exact_mod_cast hc
    simp only [List.length_cons]
    push_cast
    omega

/-- Witness for C5 at a concrete input: rate 1 Hz, window 1 s, buffer
`[(1, 0), (2, 0)]` evicted at `now = 2`; the bound is `ceil(1 * 1) + 1 = 2`. -/
theorem evict_length_bounded_witness :
    (0 : ℚ) < 1 ∧ (0 : ℚ) ≤ 1 ∧
    List.Chain' (fun e f : Entry => e.ts + 1 / 1 ≤ f.ts)
      ([⟨1, 0⟩] ++ [⟨2, 0⟩]) ∧
    ((evictChannel (2 - 1) ([⟨1, 0⟩] ++ [⟨2, 0⟩])).length : ℤ) ≤
      ⌈(1 : ℚ) * 1⌉ + 1 :=
  ⟨by norm_num, by norm_num, by norm_num [List.chain'_cons],
   evict_length_bounded 2 1 1 0 [⟨1, 0⟩] (by norm_num) (by norm_num)
     (by norm_num [List.chain'_cons])⟩

/-- Claim C6: `baseline_correct` keeps the baseline vector the same length,
sets the baseline of every channel with a non-empty buffer to the arithmetic
mean of its buffered values, and leaves the baseline of an empty channel at
its previous value. -/
theorem baseline_mean_or_previous (buffers : List (List Entry)) (old : List ℚ)
    (hlen : buffers.length = old.length) :
    (baseline_correct buffers old).length = old.length ∧
    ∀ i, i < old.length →
      (baseline_correct buffers old)[i]? =
        if (buffers[i]?.getD []).isEmpty then old[i]?
        else some (channelMean (buffers[i]?.getD [])) :=
  ⟨baseline_correct_length buffers old hlen,
   baseline_correct_getElem buffers old hlen⟩

/-- Witness for C6 at a concrete input: channel 0 holds values 2 and 4 (mean
3), channel 1 is empty and keeps its previous baseline 9. -/
theorem baseline_mean_or_previous_witness :
    ([[⟨0, 2⟩, ⟨1, 4⟩], []] : List (List Entry)).length =
      ([7, 9] : List ℚ).length ∧
    ((baseline_correct [[⟨0, 2⟩, ⟨1, 4⟩], []] [7, 9]).length =
        ([7, 9] : List ℚ).length ∧
     ∀ i, i < ([7, 9] : List ℚ).length →
       (baseline_correct [[⟨0, 2⟩, ⟨1, 4⟩], []] [7, 9])[i]? =
         if (([[⟨0, 2⟩, ⟨1, 4⟩], []] : List (List Entry))[i]?.getD
              []).isEmpty
         then ([7, 9] : List ℚ)[i]?
         else some (channelMean
           (([[⟨0, 2⟩, ⟨1, 4⟩], []] : List (List Entry))[i]?.getD []))) :=
  ⟨by decide, baseline_mean_or_previous [[⟨0, 2⟩, ⟨1, 4⟩], []] [7, 9]
    (by decide)⟩

/-- Claim C7 counterexample: processing the `Disconnected` response clears the
connection flag but leaves `data_buffer` untouched, so right after disconnect
the per-channel buffers still hold the sessions samples; they are only
replaced on the next `Connected` response. -/
theorem disconnect_retains_buffered_samples :
    (processResponse sampleState LslResponse.disconnected).is_connected
        = false ∧
    (processResponse sampleState LslResponse.disconnected).data_buffer
        = [[⟨1, 2⟩]] ∧
    (⟨1, 2⟩ : Entry) ∈
      ((processResponse sampleState
          LslResponse.disconnected).data_buffer.getD 0 []) := by
  decide

/-- Claim C7 (amended): the channel buffer set is *not* discarded when the
`Disconnected` response is handled (the buffers survive unchanged); it is
discarded and reallocated only when the next `Connected` response arrives. -/
theorem buffer_reset_at_connect (s : ViewerState) :
    (processResponse s LslResponse.disconnected).data_buffer =
      s.data_buffer ∧
    ∀ name channels,
      (processResponse s (LslResponse.connected name channels)).data_buffer =
        List.replicate channels.length [] :=
  ⟨rfl, fun _ _ => rfl⟩

/-- Witness for C7 (amended) at the concrete state `sampleState`. -/
theorem buffer_reset_at_connect_witness :
    (processResponse sampleState LslResponse.disconnected).data_buffer =
      sampleState.data_buffer ∧
    ∀ name channels,
      (processResponse sampleState
          (LslResponse.connected name channels)).data_buffer =
        List.replicate channels.length [] :=
  buffer_reset_at_connect sampleState

/-- Claim C8: two samples inside the same sweep (both unwrapped offsets in
`[0, W)`) keep their order under the window transform: `ts1 < ts2` gives
`t_rel1 < t_rel2`. -/
theorem trel_strict_mono (W t0 ts1 ts2 : ℚ) (_hW : 0 < W)
    (h1a : 0 ≤ ts1 - t0) (h1b : ts1 - t0 < W)
    (h2a : 0 ≤ ts2 - t0) (h2b : ts2 - t0 < W)
    (h12 : ts1 < ts2) :
    rustRem (ts1 - t0) W < rustRem (ts2 - t0) W := by
  rw [rustRem_eq_self h1a h1b, rustRem_eq_self h2a h2b]
  linarith

/-- Witness for C8 at `W = 2`, `t0 = 0`, `ts1 = 0`, `ts2 = 1`. -/
theorem trel_strict_mono_witness :
    (0 : ℚ) < 2 ∧ (0 : ℚ) ≤ 0 - 0 ∧ (0 : ℚ) - 0 < 2 ∧
    (0 : ℚ) ≤ 1 - 0 ∧ (1 : ℚ) - 0 < 2 ∧ (0 : ℚ) < 1 ∧
    rustRem ((0 : ℚ) - 0) 2 < rustRem ((1 : ℚ) - 0) 2 :=
  ⟨by norm_num, by norm_num, by norm_num, by norm_num, by norm_num,
   by norm_num,
   trel_strict_mono 2 0 0 1 (by norm_num) (by norm_num) (by norm_num)
     (by norm_num) (by norm_num) (by norm_num)⟩

/-- Claim C9: with decimation factor `d >= 1`, the point-building loop visits
exactly the buffered samples at indices `0, d, 2d, ...` (an even stride, no
averaging) and emits one point per visited sample, for a total of
`ceil(n / d) = (n + d - 1) / d` plotted points across the fresh and stale
lines. -/
theorem decimation_exact_stride (W t0 baseline scale : ℚ) (plotIdx : ℕ)
    (d : ℕ) (l : List Entry) (hd : 1 ≤ d) :
    ((buildPoints W t0 baseline scale plotIdx d l).1.length +
      (buildPoints W t0 baseline scale plotIdx d l).2.length
        = (l.length + d - 1) / d) ∧
    ∀ i : ℕ, (stepBy (max d 1) l)[i]? = l[d * i]? := by
  have hmax : max d 1 = d := max_eq_left hd
  constructor
  · rw [buildPoints, foldl_pushPoint_length, hmax, stepBy_length d hd l]
    simp
  · intro i
    rw [hmax, stepBy_getElem d hd l i]

/-- Witness for C9: 100 buffered samples at decimation factor 4 yield exactly
`(100 + 4 - 1) / 4 = 25` plotted points. -/
theorem decimation_exact_stride_witness :
    1 ≤ 4 ∧
    (((buildPoints 2 0 0 25 0 4 (List.replicate 100 ⟨0, 0⟩)).1.length +
       (buildPoints 2 0 0 25 0 4 (List.replicate 100 ⟨0, 0⟩)).2.length
         = ((List.replicate 100 (⟨0, 0⟩ : Entry)).length + 4 - 1) / 4) ∧
     ∀ i : ℕ, (stepBy (max 4 1) (List.replicate 100 (⟨0, 0⟩ : Entry)))[i]? =
       (List.replicate 100 (⟨0, 0⟩ : Entry))[4 * i]?) ∧
    ((List.replicate 100 (⟨0, 0⟩ : Entry)).length + 4 - 1) / 4 = 25 :=
  ⟨by decide,
   decimation_exact_stride 2 0 0 25 0 4 (List.replicate 100 ⟨0, 0⟩)
     (by decide),
   by decide⟩

/-- Claim C10: on an arbitrary channel buffer (sorted or not), eviction
removes exactly a contiguous initial segment whose entries are all below the
cutoff; everything from the first entry at or above the cutoff onward is kept
unchanged and in order (the loop breaks there), even if a later entry is below
the cutoff. -/
theorem evict_keeps_tail_segment (cutoff : ℚ) (b : List Entry) :
    ∃ k, (∀ e ∈ b.take k, e.ts < cutoff) ∧
      evictChannel cutoff b = b.drop k ∧
      ∀ e ∈ (evictChannel cutoff b).head?, cutoff ≤ e.ts :=
  evictChannel_eq_drop cutoff b

/-- Witness for C10 at a concrete unsorted buffer: the entry `(0, 5)` sits
behind the first retained entry and survives eviction although its timestamp
is below the cutoff. -/
theorem evict_keeps_tail_segment_witness :
    (∃ k, (∀ e ∈ ([⟨0, 0⟩, ⟨2, 0⟩, ⟨0, 5⟩] : List Entry).take k,
        e.ts < 1) ∧
      evictChannel 1 [⟨0, 0⟩, ⟨2, 0⟩, ⟨0, 5⟩] =
        ([⟨0, 0⟩, ⟨2, 0⟩, ⟨0, 5⟩] : List Entry).drop k ∧
      ∀ e ∈ (evictChannel 1 [⟨0, 0⟩, ⟨2, 0⟩, ⟨0, 5⟩]).head?, 1 ≤ e.ts) ∧
    evictChannel 1 [⟨0, 0⟩, ⟨2, 0⟩, ⟨0, 5⟩] = [⟨2, 0⟩, ⟨0, 5⟩] :=
  ⟨evict_keeps_tail_segment 1 [⟨0, 0⟩, ⟨2, 0⟩, ⟨0, 5⟩], by decide⟩
